import Mathlib

/-!
Verification of the slice-tracker library (`slice_tracker.rs`, `file_tracker.rs`)
against its specification.

Memory model: byte addresses are natural numbers.  A slice is a pair of a start
address and a length; its one-past-the-end address is `start + len`.  The pool
(`SliceTracker`) is a `BTreeMap` keyed by start address; we embed it as a list
of entries sorted by strictly increasing start address, which is exactly the
in-order view of the map.  Byte contents of memory are modelled by a function
`mem : Nat → Nat` giving the byte stored at each address.
-/

namespace SliceTrackerModel

/-- A slice: start pointer and length, as in the `Slice` trait
(`slice.rs`: `start_ptr`, `len`, derived `end_ptr`). -/
structure Sl where
  start : Nat
  len : Nat
deriving DecidableEq, Repr

/-- `Slice::end_ptr`: one past the end, `start_ptr + len`. -/
def Sl.endPtr (s : Sl) : Nat := s.start + s.len

/-- `Slice::is_empty`: `len == 0`. -/
def Sl.isEmpty (s : Sl) : Bool := s.len = 0

/-- A tracked entry of the pool: the tracked slice (its address range) together
with its metadata, as in `Entry { data, meta }` of `slice_tracker.rs`.  The
`BTreeMap` key is `start` (the slice's start pointer). -/
structure TEntry (M : Type) where
  start : Nat
  len : Nat
  meta : M
deriving DecidableEq, Repr

/-- End pointer of a tracked entry's data. -/
def TEntry.endPtr {M : Type} (e : TEntry M) : Nat := e.start + e.len

/-- The whole tracked slice of an entry (`entry.data.as_ref()`). -/
def TEntry.slice {M : Type} (e : TEntry M) : Sl := ⟨e.start, e.len⟩

/-- The pool's map, in key order: the `BTreeMap<*const u8, Entry>` of
`SliceTracker`, listed with strictly increasing start addresses. -/
abbrev Pool (M : Type) := List (TEntry M)

/-- The rightmost entry (greatest key, since the list is in key order) whose
start address satisfies `p`.  This embeds
`self.map().range((Unbounded, bound)).next_back()` for the two bounds used by
the tracker. -/
def lastStart {M : Type} (p : Nat → Bool) : Pool M → Option (TEntry M)
  | [] => none
  | x :: xs =>
    match lastStart p xs with
    | some y => some y
    | none => if p x.start then some x else none

/-- `first_entry_at_or_before`: last entry with `start_ptr <= bound`
(`range((Unbounded, Included(bound))).next_back()`). -/
def first_entry_at_or_before {M : Type} (pool : Pool M) (bound : Nat) : Option (TEntry M) :=
  lastStart (fun s => s ≤ bound) pool

/-- `first_entry_before`: last entry with `start_ptr < bound`
(`range((Unbounded, Excluded(bound))).next_back()`). -/
def first_entry_before {M : Type} (pool : Pool M) (bound : Nat) : Option (TEntry M) :=
  lastStart (fun s => s < bound) pool

/-- `get_entry`: reject empty slices; otherwise take the last entry with
`start_ptr <= data.start_ptr()` and succeed iff `data.end_ptr() <= entry.data.end_ptr()`. -/
def get_entry {M : Type} (pool : Pool M) (data : Sl) : Option (TEntry M) :=
  if data.isEmpty then
    none
  else
    match first_entry_at_or_before pool data.start with
    | none => none
    | some entry => if data.endPtr ≤ entry.endPtr then some entry else none

/-- `has_overlap`: empty slices never overlap; otherwise take the last entry
with `start < data.end_ptr()` and report a conflict iff
`conflict.data.end_ptr() > data.start_ptr()`. -/
def has_overlap {M : Type} (pool : Pool M) (data : Sl) : Bool :=
  if data.isEmpty then
    false
  else
    match first_entry_before pool data.endPtr with
    | none => false
    | some conflict => conflict.endPtr > data.start

/-- Insertion into the key-ordered list at the position determined by the new
entry's start address (what `BTreeMap::insert` does to the in-order view when
the key is vacant). -/
def insertSorted {M : Type} : Pool M → TEntry M → Pool M
  | [], e => [e]
  | x :: xs, e => if e.start < x.start then e :: x :: xs else x :: insertSorted xs e

/-- insert_unsafe: insert at key `data.start_ptr()`.  The vacant arm inserts
and returns the tracked data; the occupied arm is `unreachable!()`, modelled as
`none` (process abort). -/
def insert_unsafe {M : Type} (pool : Pool M) (data : Sl) (meta : M) :
    Option (Pool M × Sl) :=
  if pool.any (fun e => e.start = data.start) then
    none
  else
    some (insertSorted pool ⟨data.start, data.len, meta⟩, data)

/-- `insert`: reject empty data or data that overlaps tracked entries, else
defer to insert_unsafe.  The outer `Option` is `none` only if the
`unreachable!()` arm of insert_unsafe is hit; `Except` carries the
`Result<&B, ()>`.  On failure the map is untouched, so the state is returned
unchanged alongside the error. -/
def insert {M : Type} (pool : Pool M) (data : Sl) (meta : M) :
    Option (Pool M × Except Unit Sl) :=
  if data.isEmpty || has_overlap pool data then
    some (pool, .error ())
  else
    ( insert_unsafe pool data meta).map fun r => (r.1, .ok r.2)

/-- `is_tracked`: `get_entry(data).is_some()`. -/
def is_tracked {M : Type} (pool : Pool M) (data : Sl) : Bool :=
  (get_entry pool data).isSome

/-- `get`: whole tracked slice and metadata. -/
def get {M : Type} (pool : Pool M) (data : Sl) : Option (Sl × M) :=
  (get_entry pool data).map fun entry => (entry.slice, entry.meta)

/-- `metadata`: metadata only. -/
def metadata {M : Type} (pool : Pool M) (data : Sl) : Option M :=
  (get_entry pool data).map fun entry => entry.meta

/-- `whole_slice`: whole tracked slice only. -/
def whole_slice {M : Type} (pool : Pool M) (data : Sl) : Option Sl :=
  (get_entry pool data).map fun entry => entry.slice

/-- The pool invariant: entries are listed in key order with pairwise disjoint
address ranges (each entry ends at or before any later entry starts), and every
entry is non-empty. -/
def Inv {M : Type} (pool : Pool M) : Prop :=
  pool.Pairwise (fun a b => a.endPtr ≤ b.start) ∧ ∀ e ∈ pool, 0 < e.len

/-- An entry contains a query slice: `entry.start ≤ q.start` and
`q.end ≤ entry.end`. -/
def contains {M : Type} (e : TEntry M) (q : Sl) : Prop :=
  e.start ≤ q.start ∧ q.endPtr ≤ e.endPtr

/-- Two address ranges intersect (share at least one byte address). -/
def intersects {M : Type} (e : TEntry M) (q : Sl) : Prop :=
  e.start < q.endPtr ∧ q.start < e.endPtr

instance {M : Type} (e : TEntry M) (q : Sl) : Decidable (contains e q) := by
  unfold contains; infer_instance

instance {M : Type} (e : TEntry M) (q : Sl) : Decidable (intersects e q) := by
  unfold intersects; infer_instance


/-! ### Helper lemmas about the ordered map model -/

theorem lastStart_mem {M : Type} {p : Nat → Bool} {l : Pool M} {e : TEntry M}
    (h : lastStart p l = some e) : e ∈ l ∧ p e.start = true := by
  induction l with
  | nil => simp [lastStart] at h
  | cons x xs ih =>
    simp only [lastStart] at h
    cases hxs : lastStart p xs with
    | some y =>
      rw [hxs] at h
      obtain rfl : y = e := by injection h
      obtain ⟨hm, hp⟩ := ih hxs
      exact ⟨List.mem_cons_of_mem _ hm, hp⟩
    | none =>
      rw [hxs] at h
      by_cases hp : p x.start = true
      · simp [hp] at h
        subst h
        exact ⟨List.mem_cons_self _ _, hp⟩
      · simp [hp] at h

theorem lastStart_eq_none {M : Type} {p : Nat → Bool} {l : Pool M} :
    lastStart p l = none ↔ ∀ e ∈ l, p e.start = false := by
  induction l with
  | nil => simp [lastStart]
  | cons x xs ih =>
    simp only [lastStart]
    cases hxs : lastStart p xs with
    | some y =>
      constructor
      · intro h; cases h
      · intro h
        exfalso
        have hy := lastStart_mem hxs
        have := h y (List.mem_cons_of_mem _ hy.1)
        rw [hy.2] at this; cases this
    | none =>
      constructor
      · intro h e he
        rcases List.mem_cons.mp he with rfl | he'
        · by_contra hp
          simp only [Bool.not_eq_false] at hp
          simp [hp] at h
        · exact ih.mp hxs e he'
      · intro h
        have hp := h x (List.mem_cons_self _ _)
        simp [hp]

theorem pairwise_rel_cases {α : Type} {r : α → α → Prop} {l : List α} {a b : α}
    (h : l.Pairwise r) (ha : a ∈ l) (hb : b ∈ l) : a = b ∨ r a b ∨ r b a := by
  induction l with
  | nil => cases ha
  | cons x xs ih =>
    rcases List.pairwise_cons.mp h with ⟨hx, hxs⟩
    rcases List.mem_cons.mp ha with rfl | ha' <;>
      rcases List.mem_cons.mp hb with rfl | hb'
    · exact Or.inl rfl
    · exact Or.inr (Or.inl (hx _ hb'))
    · exact Or.inr (Or.inr (hx _ ha'))
    · exact ih hxs ha' hb'

/-- Under the invariant, two tracked entries are equal or have disjoint
address ranges. -/
theorem Inv.rel {M : Type} {pool : Pool M} {a b : TEntry M} (h : Inv pool)
    (ha : a ∈ pool) (hb : b ∈ pool) :
    a = b ∨ a.endPtr ≤ b.start ∨ b.endPtr ≤ a.start :=
  pairwise_rel_cases h.1 ha hb

/-- Under the invariant, start addresses are strictly increasing along the
list. -/
theorem Inv.sortedStart {M : Type} {pool : Pool M} (h : Inv pool) :
    pool.Pairwise (fun a b => a.start < b.start) := by
  refine List.Pairwise.imp_of_mem ?_ h.1
  intro a b ha _ hab
  have hlen := h.2 a ha
  simp only [TEntry.endPtr] at hab
  omega

theorem lastStart_max {M : Type} {p : Nat → Bool} {pool : Pool M} {e : TEntry M}
    (hs : pool.Pairwise fun a b => a.start < b.start)
    (h : lastStart p pool = some e) :
    ∀ e' ∈ pool, p e'.start = true → e'.start ≤ e.start := by
  induction pool with
  | nil => simp [lastStart] at h
  | cons x xs ih =>
    rcases List.pairwise_cons.mp hs with ⟨hx, hxs⟩
    simp only [lastStart] at h
    cases hlast : lastStart p xs with
    | some y =>
      rw [hlast] at h
      obtain rfl : y = e := by injection h
      intro e' he' hp
      rcases List.mem_cons.mp he' with rfl | he''
      · exact le_of_lt (hx _ (lastStart_mem hlast).1)
      · exact ih hxs hlast e' he'' hp
    | none =>
      rw [hlast] at h
      by_cases hp : p x.start = true
      · simp [hp] at h
        subst h
        intro e' he' hp'
        rcases List.mem_cons.mp he' with rfl | he''
        · exact le_rfl
        · exact absurd hp' (by simp [lastStart_eq_none.mp hlast e' he''])
      · simp [hp] at h


theorem isEmpty_eq_false {q : Sl} (hq : 0 < q.len) : q.isEmpty = false := by
  simp [Sl.isEmpty]; omega

/-- What a successful `get_entry` guarantees (no invariant needed): the entry
is tracked, the query is non-empty, and the entry contains the query. -/
theorem get_entry_mem {M : Type} {pool : Pool M} {q : Sl} {e : TEntry M}
    (h : get_entry pool q = some e) :
    e ∈ pool ∧ 0 < q.len ∧ e.start ≤ q.start ∧ q.endPtr ≤ e.endPtr := by
  by_cases hq : q.len = 0
  · simp [get_entry, Sl.isEmpty, hq] at h
  · rw [get_entry, isEmpty_eq_false (by omega)] at h
    simp only [Bool.false_eq_true, if_false] at h
    cases hfe : first_entry_at_or_before pool q.start with
    | none => rw [hfe] at h; cases h
    | some entry =>
      rw [hfe] at h
      by_cases hend : q.endPtr ≤ entry.endPtr
      · simp only [hend, if_true] at h
        obtain rfl : entry = e := by injection h
        obtain ⟨hm, hp⟩ := lastStart_mem hfe
        exact ⟨hm, by omega, by simpa using hp, hend⟩
      · simp [hend] at h

/-- Under the invariant, `get_entry` finds any tracked entry containing a
non-empty query. -/
theorem get_entry_eq_of_contains {M : Type} {pool : Pool M} {q : Sl}
    {e : TEntry M} (hInv : Inv pool) (hq : 0 < q.len) (he : e ∈ pool)
    (hc : contains e q) : get_entry pool q = some e := by
  obtain ⟨hc1, hc2⟩ := hc
  rw [get_entry, isEmpty_eq_false hq]
  simp only [Bool.false_eq_true, if_false]
  cases hfe : first_entry_at_or_before pool q.start with
  | none =>
    exact absurd (lastStart_eq_none.mp hfe e he) (by simpa using hc1)
  | some e1 =>
    obtain ⟨hm1, hp1⟩ := lastStart_mem hfe
    have hmax : e.start ≤ e1.start :=
      lastStart_max hInv.sortedStart hfe e he (by simpa using hc1)
    have hp1' : e1.start ≤ q.start := by simpa using hp1
    obtain rfl : e1 = e := by
      rcases hInv.rel hm1 he with h | h | h
      · exact h
      · have := hInv.2 e1 hm1
        simp only [TEntry.endPtr] at h
        omega
      · simp only [TEntry.endPtr, Sl.endPtr] at h hc2
        omega
    simp only [Sl.endPtr, TEntry.endPtr] at hc2
    simp [Sl.endPtr, TEntry.endPtr, hc2]

/-- Under the invariant, at most one tracked entry contains a non-empty
query. -/
theorem contains_unique {M : Type} {pool : Pool M} {q : Sl} {e e' : TEntry M}
    (hInv : Inv pool) (hq : 0 < q.len) (he : e ∈ pool) (hc : contains e q)
    (he' : e' ∈ pool) (hc' : contains e' q) : e = e' := by
  have h1 := get_entry_eq_of_contains hInv hq he hc
  have h2 := get_entry_eq_of_contains hInv hq he' hc'
  rw [h1] at h2
  injection h2

/-- Under the invariant, the strict-predecessor test of `has_overlap` decides
exactly "some tracked entry shares a byte address with the query". -/
theorem has_overlap_iff_exists {M : Type} {pool : Pool M} {q : Sl}
    (hInv : Inv pool) (hq : 0 < q.len) :
    has_overlap pool q = true ↔ ∃ e ∈ pool, intersects e q := by
  rw [has_overlap, isEmpty_eq_false hq]
  simp only [Bool.false_eq_true, if_false]
  constructor
  · intro h
    cases hfe : first_entry_before pool q.endPtr with
    | none => rw [hfe] at h; cases h
    | some conflict =>
      rw [hfe] at h
      obtain ⟨hm, hp⟩ := lastStart_mem hfe
      refine ⟨conflict, hm, by simpa using hp, by simpa using h⟩
  · rintro ⟨e, he, hi1, hi2⟩
    cases hfe : first_entry_before pool q.endPtr with
    | none =>
      exact absurd (lastStart_eq_none.mp hfe e he) (by simpa using hi1)
    | some e1 =>
      obtain ⟨hm1, hp1⟩ := lastStart_mem hfe
      have hmax : e.start ≤ e1.start :=
        lastStart_max hInv.sortedStart hfe e he (by simpa using hi1)
      have hlen1 := hInv.2 e1 hm1
      rcases hInv.rel hm1 he with h | h | h
      · subst h; simpa using hi2
      · simp only [TEntry.endPtr] at h; omega
      · simp only [TEntry.endPtr] at h hi2 ⊢
        simp only [decide_eq_true_eq, gt_iff_lt]
        omega

/-- If a non-empty slice has no overlap with the pool, its start address is
not an existing key (hence insert_unsafe cannot hit `unreachable!()`). -/
theorem start_fresh_of_no_overlap {M : Type} {pool : Pool M} {q : Sl}
    (hInv : Inv pool) (hq : 0 < q.len) (h : has_overlap pool q = false) :
    ∀ e ∈ pool, e.start ≠ q.start := by
  intro e he heq
  have hlen := hInv.2 e he
  have : has_overlap pool q = true := by
    rw [has_overlap_iff_exists hInv hq]
    exact ⟨e, he, by simp only [intersects, TEntry.endPtr, Sl.endPtr]; omega⟩
  rw [h] at this
  cases this

/-! ### `insertSorted` lemmas -/

theorem insertSorted_split {M : Type} (pool : Pool M) (e : TEntry M) :
    ∃ l1 l2, pool = l1 ++ l2 ∧ insertSorted pool e = l1 ++ e :: l2 := by
  induction pool with
  | nil => exact ⟨[], [], rfl, rfl⟩
  | cons x xs ih =>
    by_cases hx : e.start < x.start
    · exact ⟨[], x :: xs, rfl, by simp [insertSorted, hx]⟩
    · obtain ⟨l1, l2, h1, h2⟩ := ih
      exact ⟨x :: l1, l2, by simp [h1], by simp [insertSorted, hx, h2]⟩

theorem mem_insertSorted {M : Type} {pool : Pool M} {e a : TEntry M} :
    a ∈ insertSorted pool e ↔ a = e ∨ a ∈ pool := by
  induction pool with
  | nil => simp [insertSorted]
  | cons x xs ih =>
    by_cases hx : e.start < x.start
    · simp [insertSorted, hx]
    · simp [insertSorted, hx, ih]; tauto

/-- Inserting a non-empty entry disjoint from every tracked entry preserves
the pool invariant. -/
theorem Inv_insertSorted {M : Type} {pool : Pool M} {e : TEntry M}
    (hInv : Inv pool) (hlen : 0 < e.len)
    (hdisj : ∀ x ∈ pool, x.endPtr ≤ e.start ∨ e.endPtr ≤ x.start) :
    Inv (insertSorted pool e) := by
  induction pool with
  | nil =>
    refine ⟨by simp [insertSorted], ?_⟩
    intro x hx
    simp only [insertSorted, List.mem_singleton] at hx
    subst hx; exact hlen
  | cons x xs ih =>
    obtain ⟨hpw, hlens⟩ := hInv
    rcases List.pairwise_cons.mp hpw with ⟨hx, hxs⟩
    have hxlen : 0 < x.len := hlens x (List.mem_cons_self _ _)
    by_cases hlt : e.start < x.start
    · simp only [insertSorted, hlt, if_true]
      refine ⟨List.pairwise_cons.mpr ⟨?_, hpw⟩, ?_⟩
      · intro z hz
        rcases List.mem_cons.mp hz with rfl | hz'
        · have hzlen : 0 < z.len := hxlen
          rcases hdisj z (List.mem_cons_self _ _) with h | h
          · simp only [TEntry.endPtr] at h ⊢; omega
          · exact h
        · have hzlen : 0 < z.len := hlens z (List.mem_cons_of_mem _ hz')
          have hxz := hx z hz'
          rcases hdisj z (List.mem_cons_of_mem _ hz') with h | h
          · simp only [TEntry.endPtr] at h hxz ⊢; omega
          · exact h
      · intro z hz
        rcases List.mem_cons.mp hz with rfl | hz'
        · exact hlen
        · exact hlens z hz'
    · simp only [insertSorted, hlt, if_false]
      have hxe : x.endPtr ≤ e.start := by
        rcases hdisj x (List.mem_cons_self _ _) with h | h
        · exact h
        · simp only [TEntry.endPtr] at h ⊢; omega
      have ihxs := ih ⟨hxs, fun z hz => hlens z (List.mem_cons_of_mem _ hz)⟩
        (fun z hz => hdisj z (List.mem_cons_of_mem _ hz))
      refine ⟨List.pairwise_cons.mpr ⟨?_, ihxs.1⟩, ?_⟩
      · intro z hz
        rcases mem_insertSorted.mp hz with rfl | hz'
        · exact hxe
        · exact hx z hz'
      · intro z hz
        rcases List.mem_cons.mp hz with rfl | hz'
        · exact hxlen
        · exact ihxs.2 z hz'

/-! ### `insert` outcome lemmas -/

/-- `get_entry` succeeds exactly through the predecessor query. -/
theorem get_entry_some_elim {M : Type} {pool : Pool M} {q : Sl} {e : TEntry M}
    (h : get_entry pool q = some e) :
    first_entry_at_or_before pool q.start = some e ∧ q.endPtr ≤ e.endPtr := by
  by_cases hq : q.len = 0
  · simp [get_entry, Sl.isEmpty, hq] at h
  · rw [get_entry, isEmpty_eq_false (by omega)] at h
    simp only [Bool.false_eq_true, if_false] at h
    cases hfe : first_entry_at_or_before pool q.start with
    | none => rw [hfe] at h; cases h
    | some entry =>
      rw [hfe] at h
      by_cases hend : q.endPtr ≤ entry.endPtr
      · simp only [hend, if_true] at h
        obtain rfl : entry = e := by injection h
        exact ⟨rfl, hend⟩
      · simp [hend] at h

/-- Inserting an empty slice fails and leaves the pool unchanged. -/
theorem insert_empty {M : Type} (pool : Pool M) {d : Sl} (m : M)
    (hd : d.len = 0) : insert pool d m = some (pool, .error ()) := by
  simp [insert, Sl.isEmpty, hd]

/-- Inserting a slice that intersects a tracked entry fails and leaves the
pool unchanged. -/
theorem insert_fail {M : Type} {pool : Pool M} {d : Sl} (m : M)
    (hInv : Inv pool) (hd : 0 < d.len) {e : TEntry M} (he : e ∈ pool)
    (hi : intersects e d) : insert pool d m = some (pool, .error ()) := by
  have hov : has_overlap pool d = true :=
    (has_overlap_iff_exists hInv hd).mpr ⟨e, he, hi⟩
  simp [insert, hov]

/-- Inserting a non-empty slice intersecting nothing succeeds: the new entry
is placed at its key position, nothing else changes, the invariant is
preserved, and the returned reference is the data itself. -/
theorem insert_success {M : Type} {pool : Pool M} {d : Sl} (m : M)
    (hInv : Inv pool) (hd : 0 < d.len)
    (hno : ∀ e ∈ pool, ¬ intersects e d) :
    insert pool d m = some (insertSorted pool ⟨d.start, d.len, m⟩, .ok d) ∧
    Inv (insertSorted pool ⟨d.start, d.len, m⟩) := by
  have hov : has_overlap pool d = false := by
    by_contra hc
    simp only [Bool.not_eq_false] at hc
    obtain ⟨e, he, hi⟩ := (has_overlap_iff_exists hInv hd).mp hc
    exact hno e he hi
  have hfresh : ∀ e ∈ pool, e.start ≠ d.start :=
    start_fresh_of_no_overlap hInv hd hov
  have hany : pool.any (fun e => e.start = d.start) = false := by
    simp only [List.any_eq_false, decide_eq_true_eq]
    exact hfresh
  have hdisj : ∀ x ∈ pool,
      x.endPtr ≤ (⟨d.start, d.len, m⟩ : TEntry M).start ∨
      (⟨d.start, d.len, m⟩ : TEntry M).endPtr ≤ x.start := by
    intro x hx
    have := hno x hx
    simp only [intersects, not_and_or, not_lt, Sl.endPtr, TEntry.endPtr] at this ⊢
    omega
  refine ⟨?_, Inv_insertSorted hInv hd hdisj⟩
  rw [insert, isEmpty_eq_false hd, hov]
  simp [ insert_unsafe, hany]

end SliceTrackerModel

namespace FileTrackerModel

open SliceTrackerModel

/-- The byte value of `\n`. -/
def newline : Nat := 10

/-- Indices (ascending) at which byte `c` occurs in `l`; reversing it gives the
iteration order of `memrchr_iter(c, l)`. -/
def indicesOf (c : Nat) : List Nat → List Nat
  | [] => []
  | x :: xs =>
    if x = c then 0 :: (indicesOf c xs).map (· + 1)
    else (indicesOf c xs).map (· + 1)

/-- `compute_location(subslice, data)` with the pointer subtraction
`subslice.as_ptr() - data.as_ptr()` already performed: `offset` is the byte
offset of the subslice in `data`.  `memrchr_iter(b'\n', &data[..offset])`
yields newline positions in `data.take offset` from the last backward; if
there is none the location is `(1, offset + 1)`, otherwise with nearest
preceding newline at `i` and `rest` earlier newlines it is
`(rest.count() + 2, offset - i)`. -/
def compute_location (data : List Nat) (offset : Nat) : Nat × Nat :=
  match (indicesOf newline (data.take offset)).reverse with
  | [] => (1, offset + 1)
  | i :: rest => (rest.length + 2, offset - i)

/-- `Source`: provenance metadata stored with each entry
(`Unknown | ExpandedFrom(&Data) | File(PathBuf)`); the parent reference is the
parent slice's address range, paths are strings. -/
inductive Source where
  | Unknown : Source
  | ExpandedFrom : Sl → Source
  | File : String → Source
deriving DecidableEq, Repr

/-- `SourceLocation`: result of `get_source_location`
(`Unknown | ExpandedFrom(&Data) | File(FileLocation { path, line, column })`). -/
inductive SourceLocation where
  | Unknown : SourceLocation
  | ExpandedFrom : Sl → SourceLocation
  | File : String → Nat → Nat → SourceLocation
deriving DecidableEq, Repr

/-- The bytes of a slice under memory `mem` (`data.as_bytes()`). -/
def readBytes (mem : Nat → Nat) (s : Sl) : List Nat :=
  (List.range s.len).map fun i => mem (s.start + i)

/-- `get_source_location`: look the slice up in the tracker, then dispatch on
the provenance tag; for `File` provenance compute (line, column) of the slice
inside the whole tracked slice (the pointer subtraction in `compute_location`
yields `data.start - whole_slice.start`). -/
def get_source_location (mem : Nat → Nat) (pool : Pool Source) (data : Sl) :
    Option SourceLocation :=
  (get pool data).map fun r =>
    match r.2 with
    | .Unknown => .Unknown
    | .ExpandedFrom sources => .ExpandedFrom sources
    | .File path =>
      let lc := compute_location (readBytes mem r.1) (data.start - r.1.start)
      .File path lc.1 lc.2

/-- Result of `read_text_file(path)`: an I/O error, or the file contents as a
byte list. -/
inductive ReadResult where
  | ioError : ReadResult
  | ok : List Nat → ReadResult

/-- The failure modes of `insert_file`: an underlying I/O error, or the
distinct "file is empty" error (`ErrorKind::UnexpectedEof`). -/
inductive FileError where
  | ioError : FileError
  | emptyFile : FileError
deriving DecidableEq, Repr

/-- `insert_file`: read the file (outcome `r`; the fresh buffer is allocated
at address `addr`); propagate I/O errors; reject empty contents with the
distinct empty-file error; otherwise call insert_unsafe directly with
`Source::File(path)` provenance.  The outer `Option` is `none` only when
insert_unsafe hits its `unreachable!()` arm. -/
def insert_file (pool : Pool Source) (path : String) (r : ReadResult)
    (addr : Nat) : Option (Pool Source × Except FileError Sl) :=
  match r with
  | .ioError => some (pool, .error .ioError)
  | .ok content =>
    if content.length = 0 then
      some (pool, .error .emptyFile)
    else
      ( insert_unsafe pool ⟨addr, content.length⟩ (Source.File path)).map
        fun res => (res.1, .ok res.2)

end FileTrackerModel


namespace SliceTrackerModel

/-! ### Claim theorems for the ownership pool -/

/-- C1: For every query slice: if the slice is empty, lookup (`get`,
`whole_slice`, `metadata`, `is_tracked`) reports no match regardless of pool
state; if the slice is non-empty, lookup returns the entry (whole range and
metadata) exactly when the tracked entry with the greatest start address ≤ the
query's start address exists and the query's end address is ≤ that entry's end
address, and that entry is then the unique tracked entry containing the
query. -/
theorem C1_lookup_characterization {M : Type} (pool : Pool M) (q : Sl)
    (hInv : Inv pool) :
    (q.len = 0 →
      get pool q = none ∧ whole_slice pool q = none ∧
      metadata pool q = none ∧ is_tracked pool q = false) ∧
    (0 < q.len →
      (∀ e : TEntry M,
        get_entry pool q = some e ↔
          (e ∈ pool ∧ e.start ≤ q.start ∧
           (∀ e' ∈ pool, e'.start ≤ q.start → e'.start ≤ e.start) ∧
           q.endPtr ≤ e.endPtr)) ∧
      (∀ e : TEntry M, get_entry pool q = some e →
        get pool q = some (e.slice, e.meta) ∧ contains e q ∧
        ∀ e' ∈ pool, contains e' q → e' = e)) := by
  constructor
  · intro hq
    simp [get, whole_slice, metadata, is_tracked, get_entry, Sl.isEmpty, hq]
  · intro hq
    constructor
    · intro e
      constructor
      · intro h
        obtain ⟨hfe, hend⟩ := get_entry_some_elim h
        obtain ⟨hm, hp⟩ := lastStart_mem hfe
        refine ⟨hm, by simpa using hp, ?_, hend⟩
        intro e' he' hle
        exact lastStart_max hInv.sortedStart hfe e' he' (by simpa using hle)
      · rintro ⟨hm, h1, _, h2⟩
        exact get_entry_eq_of_contains hInv hq hm ⟨h1, h2⟩
    · intro e h
      obtain ⟨hm, _, h1, h2⟩ := get_entry_mem h
      refine ⟨by simp [get, h], ⟨h1, h2⟩, ?_⟩
      intro e' he' hc'
      exact (contains_unique hInv hq hm ⟨h1, h2⟩ he' hc').symm

/-- Witness for C1 at a concrete pool and query. -/
theorem C1_lookup_characterization_witness :
    get_entry [(⟨10, 5, 1⟩ : TEntry Nat)] ⟨11, 2⟩ = some ⟨10, 5, 1⟩ := by
  have hInv : Inv [(⟨10, 5, 1⟩ : TEntry Nat)] := by
    refine ⟨List.pairwise_singleton _ _, ?_⟩
    intro e he
    simp only [List.mem_singleton] at he
    subst he
    decide
  have h := (C1_lookup_characterization [(⟨10, 5, 1⟩ : TEntry Nat)] ⟨11, 2⟩
    hInv).2 (by decide)
  refine (h.1 ⟨10, 5, 1⟩).mpr ⟨by simp, by decide, ?_, by decide⟩
  intro e' he'
  simp only [List.mem_singleton] at he'
  subst he'
  intro _
  decide

/-- C2: insert fails on an empty slice; for non-empty data it fails exactly
when the data's address interval shares a byte with some tracked entry, and
succeeds otherwise (so entries merely touching end-to-start are no conflict);
the single strict-predecessor test `has_overlap` decides exactly
intersection. -/
theorem C2_insert_overlap_characterization {M : Type} (pool : Pool M)
    (d : Sl) (m : M) (hInv : Inv pool) :
    (d.len = 0 → insert pool d m = some (pool, .error ())) ∧
    (0 < d.len →
      (has_overlap pool d = true ↔ ∃ e ∈ pool, intersects e d) ∧
      (insert pool d m = some (pool, .error ()) ↔ ∃ e ∈ pool, intersects e d) ∧
      ((∀ e ∈ pool, ¬ intersects e d) →
        insert pool d m =
          some (insertSorted pool ⟨d.start, d.len, m⟩, .ok d))) := by
  refine ⟨fun hd => insert_empty pool m hd, fun hd => ?_⟩
  refine ⟨has_overlap_iff_exists hInv hd, ?_, fun hno => (insert_success m hInv hd hno).1⟩
  constructor
  · intro h
    by_contra hno
    push_neg at hno
    have hs := (insert_success m hInv hd hno).1
    rw [hs] at h
    simp at h
  · rintro ⟨e, he, hi⟩
    exact insert_fail m hInv hd he hi

/-- Witness for C2: a touching (end-to-start adjacent) insert succeeds. -/
theorem C2_insert_overlap_characterization_witness :
    insert [(⟨10, 5, 1⟩ : TEntry Nat)] ⟨15, 3⟩ 2 =
      some ([⟨10, 5, 1⟩, ⟨15, 3, 2⟩], .ok ⟨15, 3⟩) := by
  have hInv : Inv [(⟨10, 5, 1⟩ : TEntry Nat)] := by
    refine ⟨List.pairwise_singleton _ _, ?_⟩
    intro e he
    simp only [List.mem_singleton] at he
    subst he
    decide
  have h := (C2_insert_overlap_characterization [(⟨10, 5, 1⟩ : TEntry Nat)]
    ⟨15, 3⟩ 2 hInv).2 (by decide)
  have hs := h.2.2 ?_
  · rw [hs]; rfl
  · intro e he
    simp only [List.mem_singleton] at he
    subst he
    decide

/-- C4: insert preserves the invariant (all entries non-empty, pairwise
disjoint, unique starts); a successful insert adds exactly one entry at its
key position and modifies no existing entry; a failed insert leaves the pool
completely unchanged; no entry is ever removed, replaced or moved. -/
theorem C4_insert_invariant_preservation {M : Type} (pool : Pool M) (d : Sl)
    (m : M) (hInv : Inv pool) :
    ∀ pool' r, insert pool d m = some (pool', r) →
      Inv pool' ∧
      (r = .error () → pool' = pool) ∧
      (∀ s, r = .ok s → s = d ∧ 0 < d.len ∧
        ∃ l1 l2, pool = l1 ++ l2 ∧
          pool' = l1 ++ (⟨d.start, d.len, m⟩ : TEntry M) :: l2) := by
  intro pool' r h
  by_cases hd : d.len = 0
  · rw [insert_empty pool m hd] at h
    obtain ⟨rfl, rfl⟩ : pool = pool' ∧ Except.error () = r := by
      have := (Option.some.injEq _ _).mp h
      exact ⟨congrArg Prod.fst this, congrArg Prod.snd this⟩
    exact ⟨hInv, fun _ => rfl, fun s hs => by cases hs⟩
  · have hd' : 0 < d.len := by omega
    by_cases hex : ∃ e ∈ pool, intersects e d
    · obtain ⟨e, he, hi⟩ := hex
      rw [insert_fail m hInv hd' he hi] at h
      obtain ⟨rfl, rfl⟩ : pool = pool' ∧ Except.error () = r := by
        have := (Option.some.injEq _ _).mp h
        exact ⟨congrArg Prod.fst this, congrArg Prod.snd this⟩
      exact ⟨hInv, fun _ => rfl, fun s hs => by cases hs⟩
    · push_neg at hex
      obtain ⟨hs, hInv'⟩ := insert_success m hInv hd' hex
      rw [hs] at h
      obtain ⟨rfl, rfl⟩ :
          insertSorted pool ⟨d.start, d.len, m⟩ = pool' ∧ Except.ok d = r := by
        have := (Option.some.injEq _ _).mp h
        exact ⟨congrArg Prod.fst this, congrArg Prod.snd this⟩
      refine ⟨hInv', ?_, ?_⟩
      · intro hbad; cases hbad
      · intro s hok
        obtain rfl : d = s := by injection hok
        obtain ⟨l1, l2, h1, h2⟩ := insertSorted_split pool (⟨d.start, d.len, m⟩ : TEntry M)
        exact ⟨rfl, hd', l1, l2, h1, h2⟩

/-- Witness for C4 at a concrete insert into the empty pool. -/
theorem C4_insert_invariant_preservation_witness :
    Inv [(⟨10, 5, 1⟩ : TEntry Nat)] := by
  have hInv : Inv ([] : Pool Nat) := ⟨List.Pairwise.nil, by intro e he; cases he⟩
  have h := C4_insert_invariant_preservation ([] : Pool Nat) ⟨10, 5⟩ 1 hInv
    [(⟨10, 5, 1⟩ : TEntry Nat)] (.ok ⟨10, 5⟩) (by rfl)
  exact h.1

/-- C10: the four query operations are projections of the same `get_entry`
result and agree on every input slice and pool state: `is_tracked` is true
iff `get` is `some`, and `get` returns a pair iff `whole_slice` and
`metadata` return its components. -/
theorem C10_query_agreement {M : Type} (pool : Pool M) (d : Sl) :
    (is_tracked pool d = true ↔ ∃ r, get pool d = some r) ∧
    (∀ w m', get pool d = some (w, m') ↔
      (whole_slice pool d = some w ∧ metadata pool d = some m')) := by
  cases h : get_entry pool d with
  | none => simp [is_tracked, get, whole_slice, metadata, h]
  | some e =>
    constructor
    · simp [is_tracked, get, h]
    · intro w m'
      simp only [get, whole_slice, metadata, h, Option.map_some',
        Option.some.injEq, Prod.mk.injEq]

end SliceTrackerModel

namespace SliceTrackerModel

/-- C7: any two disjoint non-empty ranges insert successfully into an empty
pool (the hypotheses are symmetric in the two ranges, so this covers either
insertion order), and every non-empty sub-range of either range resolves to
that range's full extent and metadata — never the other's. -/
theorem C7_two_disjoint_inserts {M : Type} (a b : Sl) (ma mb : M)
    (ha : 0 < a.len) (hb : 0 < b.len)
    (hdisj : a.endPtr ≤ b.start ∨ b.endPtr ≤ a.start) :
    ∃ p1 p2 : Pool M,
      insert ([] : Pool M) a ma = some (p1, .ok a) ∧
      insert p1 b mb = some (p2, .ok b) ∧
      (∀ q : Sl, 0 < q.len → a.start ≤ q.start → q.endPtr ≤ a.endPtr →
        get p2 q = some (a, ma)) ∧
      (∀ q : Sl, 0 < q.len → b.start ≤ q.start → q.endPtr ≤ b.endPtr →
        get p2 q = some (b, mb)) := by
  have hInv0 : Inv ([] : Pool M) := ⟨List.Pairwise.nil, by intro e he; cases he⟩
  obtain ⟨h1, hInv1⟩ := @insert_success M [] a ma hInv0 ha
    (by intro e he; cases he)
  have hp1 : insertSorted ([] : Pool M) ⟨a.start, a.len, ma⟩ =
      [(⟨a.start, a.len, ma⟩ : TEntry M)] := rfl
  rw [hp1] at h1 hInv1
  have hno1 : ∀ e ∈ [(⟨a.start, a.len, ma⟩ : TEntry M)], ¬ intersects e b := by
    intro e he
    simp only [List.mem_singleton] at he
    subst he
    simp only [intersects, TEntry.endPtr, Sl.endPtr] at hdisj ⊢
    omega
  obtain ⟨h2, hInv2⟩ := insert_success mb hInv1 hb hno1
  refine ⟨_, _, h1, h2, ?_, ?_⟩
  · intro q hq hq1 hq2
    have hmem : (⟨a.start, a.len, ma⟩ : TEntry M) ∈
        insertSorted [(⟨a.start, a.len, ma⟩ : TEntry M)] ⟨b.start, b.len, mb⟩ :=
      mem_insertSorted.mpr (Or.inr (List.mem_singleton.mpr rfl))
    have hge := get_entry_eq_of_contains hInv2 hq hmem
      ⟨hq1, by simpa [TEntry.endPtr, Sl.endPtr] using hq2⟩
    simp [get, hge, TEntry.slice]
  · intro q hq hq1 hq2
    have hmem : (⟨b.start, b.len, mb⟩ : TEntry M) ∈
        insertSorted [(⟨a.start, a.len, ma⟩ : TEntry M)] ⟨b.start, b.len, mb⟩ :=
      mem_insertSorted.mpr (Or.inl rfl)
    have hge := get_entry_eq_of_contains hInv2 hq hmem
      ⟨hq1, by simpa [TEntry.endPtr, Sl.endPtr] using hq2⟩
    simp [get, hge, TEntry.slice]

/-- Witness for C7 with the concrete ranges [10,15) and [20,23). -/
theorem C7_two_disjoint_inserts_witness :
    ∃ p1 p2 : Pool Nat,
      insert ([] : Pool Nat) ⟨10, 5⟩ 1 = some (p1, .ok ⟨10, 5⟩) ∧
      insert p1 ⟨20, 3⟩ 2 = some (p2, .ok ⟨20, 3⟩) ∧
      get p2 ⟨11, 2⟩ = some (⟨10, 5⟩, 1) := by
  obtain ⟨p1, p2, h1, h2, hA, _⟩ := C7_two_disjoint_inserts
    ⟨10, 5⟩ ⟨20, 3⟩ (1 : Nat) 2 (by decide) (by decide) (Or.inl (by decide))
  exact ⟨p1, p2, h1, h2, hA ⟨11, 2⟩ (by decide) (by decide) (by decide)⟩

end SliceTrackerModel

namespace FileTrackerModel

/-! ### Lemmas about `indicesOf` and the location resolver -/

theorem mem_indicesOf {c : Nat} {l : List Nat} {i : Nat} :
    i ∈ indicesOf c l ↔ l[i]? = some c := by
  induction l generalizing i with
  | nil => simp [indicesOf]
  | cons x xs ih =>
    cases i with
    | zero =>
      by_cases hx : x = c
      · subst hx; simp [indicesOf]
      · simp [indicesOf, hx, List.mem_map]
    | succ n =>
      by_cases hx : x = c
      · subst hx; simp [indicesOf, List.mem_map, ih]
      · simp [indicesOf, hx, List.mem_map, ih]

theorem indicesOf_pairwise (c : Nat) (l : List Nat) :
    (indicesOf c l).Pairwise (· < ·) := by
  induction l with
  | nil => simp [indicesOf]
  | cons x xs ih =>
    have hmap : ((indicesOf c xs).map (· + 1)).Pairwise (· < ·) := by
      rw [List.pairwise_map]
      exact ih.imp (by omega)
    by_cases hx : x = c
    · subst hx
      simp only [indicesOf, if_pos rfl]
      refine List.pairwise_cons.mpr ⟨?_, hmap⟩
      intro j hj
      obtain ⟨a, _, rfl⟩ := List.mem_map.mp hj
      omega
    · simpa [indicesOf, hx] using hmap

theorem length_indicesOf (c : Nat) (l : List Nat) :
    (indicesOf c l).length = l.count c := by
  induction l with
  | nil => simp [indicesOf]
  | cons x xs ih =>
    by_cases hx : x = c
    · subst hx; simp [indicesOf, ih, List.count_cons]
    · simp [indicesOf, hx, ih, List.count_cons, Ne.symm hx]

theorem reverse_head_max {l : List Nat} {i : Nat} {rest : List Nat}
    (hp : l.Pairwise (· < ·)) (h : l.reverse = i :: rest) :
    i ∈ l ∧ ∀ j ∈ l, j ≤ i := by
  have hl : l = rest.reverse ++ [i] := by
    have := congrArg List.reverse h
    simpa using this
  subst hl
  constructor
  · simp
  · intro j hj
    rcases List.mem_append.mp hj with hj' | hj'
    · rcases List.pairwise_append.mp hp with ⟨_, _, hrel⟩
      exact le_of_lt (hrel j hj' i (List.mem_singleton.mpr rfl))
    · simp only [List.mem_singleton] at hj'
      subst hj'; exact le_rfl

/-- Membership in the newline-index list of a prefix, in terms of the whole
data. -/
theorem mem_indicesOf_take {c : Nat} {l : List Nat} {offset i : Nat} :
    i ∈ indicesOf c (l.take offset) ↔ (i < offset ∧ l[i]? = some c) := by
  rw [mem_indicesOf]
  constructor
  · intro h
    rcases List.getElem?_eq_some_iff.mp h with ⟨hlt, _⟩
    have hlen : (l.take offset).length ≤ offset := by
      simp [List.length_take]
    have hio : i < offset := lt_of_lt_of_le hlt hlen
    rw [List.getElem?_take_of_lt hio] at h
    exact ⟨hio, h⟩
  · rintro ⟨hio, h⟩
    rw [List.getElem?_take_of_lt hio]
    exact h

end FileTrackerModel

namespace FileTrackerModel

/-- C3: for every whole tracked byte range and every 0-based byte offset into
it, the location resolver returns 1-based (line, column) with line = 1 + the
number of newline bytes strictly before the offset; when no newline byte
occurs before the offset, column = offset + 1, otherwise column = offset − i
where i is the position of the nearest newline byte preceding the offset. -/
theorem C3_compute_location_line_column (data : List Nat) (offset : Nat)
    (hoff : offset ≤ data.length) :
    (compute_location data offset).1 = 1 + (data.take offset).count newline ∧
    ((∀ j, j < offset → data[j]? ≠ some newline) →
      (compute_location data offset).2 = offset + 1) ∧
    (∀ i, i < offset → data[i]? = some newline →
      (∀ j, i < j → j < offset → data[j]? ≠ some newline) →
      (compute_location data offset).2 = offset - i) := by
  unfold compute_location
  cases hrev : (indicesOf newline (data.take offset)).reverse with
  | nil =>
    have hnil : indicesOf newline (data.take offset) = [] := by
      simpa using congrArg List.reverse hrev
    refine ⟨?_, fun _ => rfl, ?_⟩
    · have h0 := length_indicesOf newline (data.take offset)
      rw [hnil] at h0
      simp only [List.length_nil] at h0
      simp only []
      omega
    · intro i hio hi _
      exfalso
      have hm : i ∈ indicesOf newline (data.take offset) :=
        mem_indicesOf_take.mpr ⟨hio, hi⟩
      rw [hnil] at hm
      cases hm
  | cons i0 rest =>
    obtain ⟨hmem0, hmax0⟩ := reverse_head_max (indicesOf_pairwise _ _) hrev
    obtain ⟨hi0lt, hi0⟩ := mem_indicesOf_take.mp hmem0
    refine ⟨?_, ?_, ?_⟩
    · have hlen : (indicesOf newline (data.take offset)).length = rest.length + 1 := by
        rw [← List.length_reverse, hrev, List.length_cons]
      have hcnt := length_indicesOf newline (data.take offset)
      simp only []
      omega
    · intro h
      exact absurd hi0 (h i0 hi0lt)
    · intro i hio hi hmaxi
      have hile : i ≤ i0 := hmax0 i (mem_indicesOf_take.mpr ⟨hio, hi⟩)
      have hnlt : ¬ i < i0 := fun hlt => (hmaxi i0 hlt hi0lt) hi0
      obtain rfl : i = i0 := by omega
      rfl

/-- Witness for C3 on "hello\nworld" at offset 7 (line 2, column 2). -/
theorem C3_compute_location_line_column_witness :
    (compute_location [104,101,108,108,111,10,119,111,114,108,100] 7).1 = 2 ∧
    (compute_location [104,101,108,108,111,10,119,111,114,108,100] 7).2 = 2 := by
  have h := C3_compute_location_line_column
    [104,101,108,108,111,10,119,111,114,108,100] 7 (by decide)
  refine ⟨?_, ?_⟩
  · rw [h.1]; decide
  · rw [h.2.2 5 (by decide) (by decide) ?_]
    · intro j h1 h2
      obtain rfl : j = 6 := by omega
      decide

/-- C6: the resolver treats only the newline byte 10 as a line terminator and
carriage return 13 as an ordinary byte, offset 0 of a whole range always
resolves to (1, 1); for the bytes of "hello\nworld", offsets 0, 5, 6, 7
resolve to (1,1), (1,6), (2,1), (2,2); for the bytes of "a\r\na\n", offsets
0–4 resolve to (1,1), (1,2), (1,3), (2,1), (2,2). -/
theorem C6_resolver_edge_cases :
    (∀ data : List Nat, compute_location data 0 = (1, 1)) ∧
    (compute_location [104,101,108,108,111,10,119,111,114,108,100] 0 = (1, 1) ∧
     compute_location [104,101,108,108,111,10,119,111,114,108,100] 5 = (1, 6) ∧
     compute_location [104,101,108,108,111,10,119,111,114,108,100] 6 = (2, 1) ∧
     compute_location [104,101,108,108,111,10,119,111,114,108,100] 7 = (2, 2)) ∧
    (compute_location [97,13,10,97,10] 0 = (1, 1) ∧
     compute_location [97,13,10,97,10] 1 = (1, 2) ∧
     compute_location [97,13,10,97,10] 2 = (1, 3) ∧
     compute_location [97,13,10,97,10] 3 = (2, 1) ∧
     compute_location [97,13,10,97,10] 4 = (2, 2)) :=
  ⟨fun _ => rfl, by decide, by decide⟩

end FileTrackerModel

namespace FileTrackerModel

open SliceTrackerModel

/-- C5: for every slice that lookup resolves to a tracked entry,
`get_source_location` dispatches on that entry's provenance tag: Unknown
provenance yields an unknown location with no line/column computation;
ExpandedFrom(parent) yields exactly the one-hop parent reference with no
flattening of provenance chains; File(path) yields that path combined with
the (line, column) computed from the slice's offset within its whole tracked
range. -/
theorem C5_provenance_dispatch (mem : Nat → Nat) (pool : Pool Source)
    (d : Sl) :
    (get pool d = none → get_source_location mem pool d = none) ∧
    (∀ w, get pool d = some (w, .Unknown) →
      get_source_location mem pool d = some .Unknown) ∧
    (∀ w p, get pool d = some (w, .ExpandedFrom p) →
      get_source_location mem pool d = some (.ExpandedFrom p)) ∧
    (∀ w path, get pool d = some (w, .File path) →
      get_source_location mem pool d =
        some (.File path
          (compute_location (readBytes mem w) (d.start - w.start)).1
          (compute_location (readBytes mem w) (d.start - w.start)).2)) := by
  refine ⟨?_, ?_, ?_, ?_⟩
  · intro h; simp [get_source_location, h]
  · intro w h; simp [get_source_location, h]
  · intro w p h; simp [get_source_location, h]
  · intro w path h; simp [get_source_location, h]

/-- Witness for C5: the "bar" part of a tracked "foo\nbar" file resolves to
line 2, column 1. -/
theorem C5_provenance_dispatch_witness :
    get_source_location (fun a => [102,111,111,10,98,97,114].getD a 0)
      [⟨0, 7, Source.File "a.txt"⟩] ⟨4, 3⟩ = some (.File "a.txt" 2 1) := by
  have h := (C5_provenance_dispatch (fun a => [102,111,111,10,98,97,114].getD a 0)
    [⟨0, 7, Source.File "a.txt"⟩] ⟨4, 3⟩).2.2.2 ⟨0, 7⟩ "a.txt" (by rfl)
  rw [h]
  rfl

/-- C8: `insert_file` fails with the underlying I/O error when the file cannot
be read; fails with the distinct empty-content error when the read succeeds
with zero length; otherwise it inserts the entire file contents with
File(path) provenance and returns the tracked slice. -/
theorem C8_insert_file_outcomes (pool : Pool Source) (path : String)
    (addr : Nat) :
    (insert_file pool path .ioError addr = some (pool, .error .ioError)) ∧
    (insert_file pool path (.ok []) addr = some (pool, .error .emptyFile)) ∧
    (∀ content : List Nat, content ≠ [] → (∀ e ∈ pool, e.start ≠ addr) →
      insert_file pool path (.ok content) addr =
        some (insertSorted pool ⟨addr, content.length, Source.File path⟩,
          .ok ⟨addr, content.length⟩)) := by
  refine ⟨rfl, rfl, ?_⟩
  intro content hne hfresh
  have hlen : content.length ≠ 0 := by
    intro h0
    exact hne (List.length_eq_zero.mp h0)
  have hany : pool.any (fun e => e.start = addr) = false := by
    simp only [List.any_eq_false, decide_eq_true_eq]
    exact hfresh
  simp [insert_file, hlen, insert_unsafe, hany]

/-- Witness for C8: a successful three-byte file insert into the empty
pool. -/
theorem C8_insert_file_outcomes_witness :
    insert_file ([] : Pool Source) "a.txt" (.ok [102, 111, 111]) 100 =
      some ([⟨100, 3, Source.File "a.txt"⟩], .ok ⟨100, 3⟩) := by
  have h := (C8_insert_file_outcomes ([] : Pool Source) "a.txt" 100).2.2
    [102, 111, 111] (by simp) (by intro e he; cases he)
  rw [h]
  rfl

/-- C9: `insert_file` performs no overlap check: with a fresh start address it
succeeds even if the new range overlaps tracked entries, so it can never
return a conflict error — its only failure modes are the I/O error and the
empty-file error, and both leave the pool unchanged; a duplicate start
address hits the `unreachable!()` branch (modelled as `none`, abort). -/
theorem C9_insert_file_no_overlap_check (pool : Pool Source) (path : String)
    (addr : Nat) :
    (∀ content : List Nat, content ≠ [] → (∀ e ∈ pool, e.start ≠ addr) →
      ∃ pool', insert_file pool path (.ok content) addr =
        some (pool', .ok ⟨addr, content.length⟩)) ∧
    (∀ r pool' err, insert_file pool path r addr = some (pool', .error err) →
      pool' = pool ∧ (err = .ioError ∨ err = .emptyFile) ∧
      (r = .ioError → err = .ioError) ∧
      (∀ c, r = .ok c → c = [] ∧ err = .emptyFile)) ∧
    (∀ content : List Nat, content ≠ [] → (∃ e ∈ pool, e.start = addr) →
      insert_file pool path (.ok content) addr = none) := by
  refine ⟨?_, ?_, ?_⟩
  · intro content hne hfresh
    have hlen : content.length ≠ 0 := fun h0 => hne (List.length_eq_zero.mp h0)
    have hany : pool.any (fun e => e.start = addr) = false := by
      simp only [List.any_eq_false, decide_eq_true_eq]
      exact hfresh
    refine ⟨insertSorted pool ⟨addr, content.length, Source.File path⟩, ?_⟩
    simp [insert_file, hlen, insert_unsafe, hany]
  · intro r pool' err h
    cases r with
    | ioError =>
      have h' : (some (pool, Except.error FileError.ioError) :
          Option (Pool Source × Except FileError Sl)) = some (pool', .error err) := h
      simp only [Option.some.injEq, Prod.mk.injEq, Except.error.injEq] at h'
      obtain ⟨rfl, rfl⟩ := h'
      refine ⟨rfl, Or.inl rfl, fun _ => rfl, ?_⟩
      intro c hc
      cases hc
    | ok c =>
      by_cases hc : c.length = 0
      · obtain rfl : c = [] := List.length_eq_zero.mp hc
        have h' : (some (pool, Except.error FileError.emptyFile) :
            Option (Pool Source × Except FileError Sl)) = some (pool', .error err) := h
        simp only [Option.some.injEq, Prod.mk.injEq, Except.error.injEq] at h'
        obtain ⟨rfl, rfl⟩ := h'
        refine ⟨rfl, Or.inr rfl, ?_, ?_⟩
        · intro hr; cases hr
        · intro c' hc'
          refine ⟨?_, rfl⟩
          injection hc' with h''
          exact h''.symm
      · exfalso
        simp only [insert_file, hc, if_false] at h
        cases hu : insert_unsafe pool ⟨addr, c.length⟩ (Source.File path) with
        | none => rw [hu] at h; cases h
        | some res =>
          rw [hu] at h
          simp only [Option.map_some', Option.some.injEq, Prod.mk.injEq] at h
          exact (by cases h.2 : False)
  · intro content hne hocc
    have hlen : content.length ≠ 0 := fun h0 => hne (List.length_eq_zero.mp h0)
    have hany : pool.any (fun e => e.start = addr) = true := by
      simp only [List.any_eq_true, decide_eq_true_eq]
      exact hocc
    simp [insert_file, hlen, insert_unsafe, hany]

/-- Witness for C9: a file buffer whose byte range lies inside an
already-tracked range still inserts successfully (no overlap check). -/
theorem C9_insert_file_no_overlap_check_witness :
    ∃ pool', insert_file [⟨0, 11, Source.Unknown⟩] "x" (.ok [1, 2]) 5 =
      some (pool', .ok ⟨5, 2⟩) := by
  have h := (C9_insert_file_no_overlap_check [⟨0, 11, Source.Unknown⟩] "x" 5).1
    [1, 2] (by simp) ?_
  · exact h
  · intro e he
    simp only [List.mem_singleton] at he
    subst he
    decide

end FileTrackerModel
